import Mathlib

/-! Email de-obfuscation and link validation (`script.js`).

A shallow embedding of the page script: the DOM of the page is a tree of nodes that carry an
identity, `deobfuscateEmails` is the snapshot-then-mutate loop of the script over that tree, and
the click handler that `validateLinks` installs is a function to the list of effects it performs.
-/

namespace TDS

/-! ## Strings -/

/-- White space in the sense of `String.prototype.trim`: the ECMAScript `WhiteSpace` and
`LineTerminator` code points. -/
def isWhiteSpace (c : Char) : Bool :=
  c.toNat = 0x09 || c.toNat = 0x0A || c.toNat = 0x0B || c.toNat = 0x0C || c.toNat = 0x0D ||
  c.toNat = 0x20 || c.toNat = 0xA0 || c.toNat = 0x1680 ||
  (0x2000 ≤ c.toNat && c.toNat ≤ 0x200A) ||
  c.toNat = 0x2028 || c.toNat = 0x2029 || c.toNat = 0x202F || c.toNat = 0x205F ||
  c.toNat = 0x3000 || c.toNat = 0xFEFF

/-- The method `trim()` of a string: white space removed from both ends. -/
def trim (s : String) : String :=
  String.mk ((s.data.dropWhile isWhiteSpace).reverse.dropWhile isWhiteSpace).reverse

/-- The method `startsWith(p)` of a string. -/
def startsWith (s p : String) : Bool :=
  p.data.isPrefixOf s.data

/-! ## The document tree -/

/-- A DOM node. Every node carries an identity `id` (the object reference of the script); text and
comment nodes carry their `nodeValue`, elements their tag, attributes and children. -/
inductive Node where
  | text (id : Nat) (nodeValue : String)
  | comment (id : Nat) (nodeValue : String)
  | element (id : Nat) (tag : String) (attrs : List (String × String)) (children : List Node)

/-- The identity of a node. -/
def Node.id : Node → Nat
  | .text i _ => i
  | .comment i _ => i
  | .element i _ _ _ => i

/-- One step of the path from a node up to the root: the parent element (identity, tag and
attributes) and the siblings before and after the node among the children of that parent. -/
structure Frame where
  id : Nat
  tag : String
  attrs : List (String × String)
  before : List Node
  after : List Node

/-- The tree in which node `n` sits at the path `fs` (innermost parent first). -/
def rebuild : List Frame → Node → Node
  | [], n => n
  | f :: fs, n => rebuild fs (.element f.id f.tag f.attrs (f.before ++ n :: f.after))

mutual
/-- Search the subtree of a node, in document order, for the node with identity `target`; the
answer is that node and its path up to the root (`path` is the path of the node searched). -/
def Node.locate (target : Nat) : Node → List Frame → Option (List Frame × Node)
  | .text i v, path => if i = target then some (path, .text i v) else none
  | .comment i v, path => if i = target then some (path, .comment i v) else none
  | .element i t a ch, path =>
    if i = target then some (path, .element i t a ch) else locateList target i t a path ch []
termination_by structural n => n
/-- Search the children of the element `(i, t, a)`, of which `before` have been searched. -/
def locateList (target : Nat) (i : Nat) (t : String) (a : List (String × String))
    (path : List Frame) : List Node → List Node → Option (List Frame × Node)
  | [], _ => none
  | n :: rest, before =>
    match n.locate target (⟨i, t, a, before, rest⟩ :: path) with
    | some r => some r
    | none => locateList target i t a path rest (before ++ [n])
termination_by structural l => l
end

/-- The property `parentNode` of the node `id`, where `root` is the subtree of the body: the
identity of its parent, `none` (null) for a node that is not in the tree (a detached node). The
parent of the body itself, which the script never asks for, is not represented. -/
def parentNode (root : Node) (id : Nat) : Option Nat :=
  match root.locate id [] with
  | some (f :: _, _) => some f.id
  | _ => none

/-- The property `nextSibling` of the node `id`, where `root` is the subtree of the body: `none`
(null) when the node is the last child of its parent or is detached. -/
def nextSibling (root : Node) (id : Nat) : Option Node :=
  match root.locate id [] with
  | some (f :: _, _) => f.after.head?
  | _ => none

/-- The exceptions the DOM calls of the script can throw. -/
inductive DOMError where
  | typeError
  | notFoundError
deriving DecidableEq

/-- The call `parent.replaceChild(newChild, oldChild)`: a `NotFoundError` when the parent of
`oldChild` is not `parent`. -/
def replaceChild (root : Node) (parent : Nat) (newChild : Node) (oldChild : Nat) :
    Except DOMError Node :=
  match root.locate oldChild [] with
  | some (f :: fs, _) =>
    if f.id = parent then .ok (rebuild (f :: fs) newChild) else .error .notFoundError
  | _ => .error .notFoundError

/-- The call `parent.removeChild(child)`: a `NotFoundError` when the parent of `child` is not
`parent`. -/
def removeChild (root : Node) (parent : Nat) (child : Nat) : Except DOMError Node :=
  match root.locate child [] with
  | some (f :: fs, _) =>
    if f.id = parent then .ok (rebuild fs (.element f.id f.tag f.attrs (f.before ++ f.after)))
    else .error .notFoundError
  | _ => .error .notFoundError

/-- The call `document.createElement(tag)`; `k` is the next unused identity. -/
def createElement (tag : String) (k : Nat) : Node × Nat :=
  (.element k tag [] [], k + 1)

/-- The assignment `node.href = value`: the content attribute `href` is set. -/
def Node.setHref : Node → String → Node
  | .element i t a ch, value => .element i t (("href", value) :: a.filter (fun p => p.1 != "href")) ch
  | n, _ => n

/-- The assignment `node.textContent = value`: the children are replaced by one text node, by
nothing when `value` is empty; `k` is the next unused identity. -/
def Node.setTextContent : Node → String → Nat → Node × Nat
  | .element i t a _, value, k =>
    if value = "" then (.element i t a [], k) else (.element i t a [.text k value], k + 1)
  | .text i _, value, k => (.text i value, k)
  | .comment i _, value, k => (.comment i value, k)

/-- The page when `DOMContentLoaded` fires: the subtree of `document.body`, the subtrees of the
document outside of it, the next unused node identity, and the identities of the nodes that carry
a click listener (one entry for each `addEventListener` call). -/
structure Document where
  body : Node
  outside : List Node
  nextId : Nat
  listeners : List Nat

/-! ## deobfuscateEmails -/

/-- A reference to a comment node held in the array `commentNodes`: the node's identity and its
`nodeValue`, which nothing in the script changes. -/
structure Comment where
  id : Nat
  nodeValue : String
deriving DecidableEq

mutual
/-- The comment nodes of a subtree, the root included, in document order. -/
def Node.comments : Node → List Comment
  | .text _ _ => []
  | .comment i v => [⟨i, v⟩]
  | .element _ _ _ ch => commentsList ch
termination_by structural n => n
/-- The comment nodes of the subtrees of a list of siblings, in document order. -/
def commentsList : List Node → List Comment
  | [] => []
  | n :: rest => n.comments ++ commentsList rest
termination_by structural l => l
end

/-- Lines 10 to 15: the nodes that the `SHOW_COMMENT` tree walker rooted at `document.body` yields,
which are the comments among the descendants of the body. -/
def commentNodes (d : Document) : List Comment :=
  match d.body with
  | .element _ _ _ ch => commentsList ch
  | _ => []

/-- Lines 24 to 26: the anchor for `email`, built from the next unused identity `k`. -/
def mailtoLink (email : String) (k : Nat) : Node × Nat :=
  let a := createElement "a" k
  (a.1.setHref ("mailto:" ++ email)).setTextContent email a.2

/-- Lines 18 to 33: the callback of `commentNodes.forEach`. -/
def processComment (d : Document) (commentNode : Comment) : Except DOMError Document :=
  if trim commentNode.nodeValue = "email_off" then
    match nextSibling d.body commentNode.id with
    | some (.text textId textValue) =>
      let email := trim textValue
      match nextSibling d.body textId with
      | some (.comment endId endValue) =>
        if trim endValue = "/email_off" then
          let link := mailtoLink email d.nextId
          match parentNode d.body commentNode.id with
          | none => .error .typeError
          | some parent =>
            match replaceChild d.body parent link.1 textId with
            | .error e => .error e
            | .ok b1 =>
              match removeChild b1 parent commentNode.id with
              | .error e => .error e
              | .ok b2 =>
                match removeChild b2 parent endId with
                | .error e => .error e
                | .ok b3 => .ok { d with body := b3, nextId := link.2 }
        else .ok d
      | _ => .ok d
    | _ => .ok d
  else .ok d

/-- The loop `commentNodes.forEach(callback)`, which stops at the first exception. -/
def forEach : List Comment → Document → Except DOMError Document
  | [], d => .ok d
  | c :: cs, d =>
    match processComment d c with
    | .ok d1 => forEach cs d1
    | .error e => .error e

/-- Lines 9 to 35. -/
def deobfuscateEmails (d : Document) : Except DOMError Document :=
  forEach (commentNodes d) d


/-! ## Well-formed documents -/

mutual
/-- The identities of the nodes of a subtree, in document order. -/
def Node.ids : Node → List Nat
  | .text i _ => [i]
  | .comment i _ => [i]
  | .element i _ _ ch => i :: idsList ch
termination_by structural n => n
/-- The identities of the nodes of the subtrees of a list of siblings. -/
def idsList : List Node → List Nat
  | [] => []
  | n :: rest => n.ids ++ idsList rest
termination_by structural l => l
end

/-- The identities a path contributes: the parents on it and the subtrees of the siblings. -/
def framesIds : List Frame → List Nat
  | [] => []
  | f :: fs => f.id :: (idsList f.before ++ idsList f.after) ++ framesIds fs

/-- The nodes under `document.body` are distinct objects, and the identities not yet handed out
are not in use: no two nodes of the body share an identity and all lie below `nextId`. -/
def BodyWF (d : Document) : Prop :=
  d.body.ids.Nodup ∧ ∀ i ∈ d.body.ids, i < d.nextId

instance (d : Document) : Decidable (BodyWF d) :=
  inferInstanceAs (Decidable (d.body.ids.Nodup ∧ ∀ i ∈ d.body.ids, i < d.nextId))

/-! ## The rewriting that deobfuscateEmails is specified to perform -/

/-- The text of the middle node when a list of siblings starts with a well-formed triple: a
comment whose trimmed value is `email_off`, a text node, a comment whose trimmed value is
`/email_off`. -/
def startsTriple : List Node → Option String
  | .comment _ cv :: .text _ tv :: .comment _ ev :: _ =>
    if trim cv = "email_off" ∧ trim ev = "/email_off" then some tv else none
  | _ => none

/-- The anchor that replaces a triple whose trimmed text is `email`: its `href` is `mailto:`
followed by `email` and its text content is `email`; `k` is the next unused identity. -/
def anchorFor (email : String) (k : Nat) : Node × Nat :=
  if email = "" then (.element k "a" [("href", "mailto:" ++ email)] [], k + 1)
  else (.element k "a" [("href", "mailto:" ++ email)] [.text (k + 1) email], k + 2)

mutual
/-- Replace the triples among the descendants of a node; `k` is the next unused identity. -/
def Node.replaceTriples : Node → Nat → Node × Nat
  | .text i v, k => (.text i v, k)
  | .comment i v, k => (.comment i v, k)
  | .element i t a ch, k =>
    let r := replaceFrom ch 0 k
    (.element i t a r.1, r.2)
termination_by structural n => n
/-- Replace, from left to right and in the subtrees, every well-formed triple of a list of siblings
by the anchor for its trimmed text. The first `skip` siblings are dropped: they are the text node
and the end marker of a triple that has just been replaced. -/
def replaceFrom : List Node → Nat → Nat → List Node × Nat
  | [], _, k => ([], k)
  | _ :: rest, skip + 1, k => replaceFrom rest skip k
  | n :: rest, 0, k =>
    match startsTriple (n :: rest) with
    | some tv =>
      let a := anchorFor (trim tv) k
      let r := replaceFrom rest 2 a.2
      (a.1 :: r.1, r.2)
    | none =>
      let h := n.replaceTriples k
      let r := replaceFrom rest 0 h.2
      (h.1 :: r.1, r.2)
termination_by structural l => l
end

/-- The document in which every well-formed triple under the body is replaced by its anchor. -/
def replaceTriples (d : Document) : Document :=
  { d with body := (d.body.replaceTriples d.nextId).1, nextId := (d.body.replaceTriples d.nextId).2 }

/-! ## What each iteration of the loop relies on -/

/-- The three shape checks of lines 18, 20 and 23 succeed for the comment `c`, with the text node
`textId` and the end marker `endId`. -/
def PassesChecks (d : Document) (c : Comment) (textId endId : Nat) : Prop :=
  trim c.nodeValue = "email_off" ∧
  ∃ tv ev, nextSibling d.body c.id = some (.text textId tv) ∧
    nextSibling d.body textId = some (.comment endId ev) ∧ trim ev = "/email_off"

/-- The iteration for `c` in the state `d` is safe: when the checks pass, the three nodes are
children of one parent; a detached comment is not a start marker; no exception is thrown. -/
def StepSafe (d : Document) (c : Comment) : Prop :=
  (∀ t e, PassesChecks d c t e →
    ∃ p, parentNode d.body c.id = some p ∧ parentNode d.body t = some p ∧
      parentNode d.body e = some p) ∧
  (parentNode d.body c.id = none → trim c.nodeValue ≠ "email_off") ∧
  ∃ d1, processComment d c = .ok d1

/-- Every iteration of the loop over `cs` from the state `d` is safe. -/
def AllSafe : List Comment → Document → Prop
  | [], _ => True
  | c :: cs, d => StepSafe d c ∧ ∀ d1, processComment d c = .ok d1 → AllSafe cs d1

/-- Whether a node is a text node (`nodeType === Node.TEXT_NODE`). -/
def Node.isText : Node → Bool
  | .text _ _ => true
  | _ => false

/-- Whether a node is a comment whose trimmed value is `/email_off`. -/
def Node.isEndMarker : Node → Bool
  | .comment _ v => decide (trim v = "/email_off")
  | _ => false

/-- The comment `c` heads a malformed triple in `d`: it has no next sibling, or its next sibling is
not a text node, or that text node has no next sibling, or the node after the text node is not a
comment with trimmed value `/email_off`. -/
def Malformed (d : Document) (c : Comment) : Prop :=
  nextSibling d.body c.id = none ∨
  (∃ n, nextSibling d.body c.id = some n ∧ n.isText = false) ∨
  (∃ ti tv, nextSibling d.body c.id = some (.text ti tv) ∧ nextSibling d.body ti = none) ∨
  (∃ ti tv n, nextSibling d.body c.id = some (.text ti tv) ∧ nextSibling d.body ti = some n ∧
    n.isEndMarker = false)

/-! ## validateLinks -/

mutual
/-- The identities of the `a` elements of a subtree, in document order. -/
def Node.anchors : Node → List Nat
  | .text _ _ => []
  | .comment _ _ => []
  | .element i t _ ch => (if t = "a" then [i] else []) ++ anchorsList ch
termination_by structural n => n
/-- The identities of the `a` elements of the subtrees of a list of siblings. -/
def anchorsList : List Node → List Nat
  | [] => []
  | n :: rest => n.anchors ++ anchorsList rest
termination_by structural l => l
end

/-- The result of `document.querySelectorAll('a')`: the anchors of the document. -/
def querySelectorAllA (d : Document) : List Nat :=
  anchorsList d.outside ++ d.body.anchors

/-- Lines 41 to 71: every anchor of the document gets a click listener. -/
def validateLinks (d : Document) : Document :=
  { d with listeners := d.listeners ++ querySelectorAllA d }

/-- Lines 76 to 79: the `DOMContentLoaded` handler runs `deobfuscateEmails`, then
`validateLinks`. -/
def onDOMContentLoaded (d : Document) : Except DOMError Document :=
  match deobfuscateEmails d with
  | .ok d1 => .ok (validateLinks d1)
  | .error e => .error e

/-- The two components run in the opposite order: `validateLinks`, then `deobfuscateEmails`. -/
def validateThenDeobfuscate (d : Document) : Except DOMError Document :=
  deobfuscateEmails (validateLinks d)

/-- The listeners of the document a run ends with (none after an exception). -/
def listenersOf : Except DOMError Document → List Nat
  | .ok d => d.listeners
  | .error _ => []

/-! ## The click listener -/

/-- What the click listener does to the world around it. -/
inductive Effect where
  | preventDefault
  | fetch (url : String) (method : String)
  | confirm (message : String)
  | consoleError (label : String) (error : String)
  | setLocation (url : String)
deriving DecidableEq

/-- The response of a probe: only its status is looked at. -/
structure Response where
  status : Nat

/-- The property `ok` of a response: the status is in the range 200 to 299. -/
def Response.ok (r : Response) : Bool :=
  200 ≤ r.status && r.status ≤ 299

/-- How the promise of `fetch` settles. -/
inductive ProbeOutcome where
  | fulfilled (response : Response)
  | rejected (error : String)

/-- The prompt of line 58. -/
def brokenMessage (url : String) : String :=
  "The link to \"" ++ url ++ "\" might be broken. Do you want to continue?"

/-- The prompt of line 65. -/
def networkMessage (url : String) : String :=
  "Could not check the link to \"" ++ url ++ "\" due to a network error. Do you want to continue?"

/-- Lines 44 to 53: the synchronous part of the listener, where `url` is the value of `this.href`.
The flag tells whether a probe is pending when the listener returns. -/
def onClick (url : String) : List Effect × Bool :=
  if startsWith url "mailto:" then ([.preventDefault, .setLocation url], false)
  else ([.preventDefault, .fetch url "HEAD"], true)

/-- Lines 54 to 62: the `then` callback; `answer` is what the user answers to a prompt. -/
def onFulfilled (url : String) (response : Response) (answer : Bool) : List Effect :=
  if response.ok then [.setLocation url]
  else .confirm (brokenMessage url) :: (if answer then [.setLocation url] else [])

/-- Lines 63 to 68: the `catch` callback. -/
def onRejected (url : String) (error : String) (answer : Bool) : List Effect :=
  .consoleError "Error checking link:" error :: .confirm (networkMessage url) ::
    (if answer then [.setLocation url] else [])

/-- Everything one click on an anchor does, in order, where `url` is the value of `this.href` (the
resolved URL of the anchor), the probe (if one is issued) settles as `outcome`, and the user
answers `answer` to a prompt. -/
def click (url : String) (outcome : ProbeOutcome) (answer : Bool) : List Effect :=
  let r := onClick url
  r.1 ++
    if r.2 then
      match outcome with
      | .fulfilled response => onFulfilled url response answer
      | .rejected error => onRejected url error answer
    else []

/-- The probes in a list of effects: the calls of `fetch`. -/
def probes : List Effect → List Effect
  | [] => []
  | .fetch url method :: rest => .fetch url method :: probes rest
  | _ :: rest => probes rest

/-! ## Example documents -/

/-- A body whose children are the comment `email_off`, the text `alice@example.com` and the
comment `/email_off`. -/
def aliceDoc : Document :=
  ⟨.element 0 "body" []
    [.comment 1 "email_off", .text 2 "alice@example.com", .comment 3 "/email_off"], [], 4, []⟩

/-- The body of `aliceDoc` with the triple replaced by its anchor. -/
def aliceLinked : Document :=
  ⟨.element 0 "body" []
    [.element 4 "a" [("href", "mailto:alice@example.com")] [.text 5 "alice@example.com"]],
    [], 6, []⟩

/-- A paragraph with two start markers that head malformed triples: the text after the first is
followed by another start marker, and the second has no next sibling. -/
def malformedDoc : Document :=
  ⟨.element 0 "body" []
    [.element 1 "p" [] [.comment 2 " email_off ", .text 3 "bob@example.com",
      .comment 4 "email_off"]], [], 5, []⟩

/-- A paragraph in which a start marker precedes a well-formed triple and an end marker follows
it. -/
def nestedDoc : Document :=
  ⟨.element 0 "body" []
    [.element 1 "p" [] [.comment 2 "email_off", .comment 3 " email_off", .text 4 " c@d.org ",
      .comment 5 "/email_off ", .text 6 "e@f.org", .comment 7 "/email_off"]], [], 8, []⟩

/-! ## Locating a node -/

theorem idsList_append (l₁ l₂ : List Node) : idsList (l₁ ++ l₂) = idsList l₁ ++ idsList l₂ := by
  induction l₁ with
  | nil => simp [idsList]
  | cons n l ih => simp [idsList, ih]

theorem Node.id_mem_ids (n : Node) : n.id ∈ n.ids := by
  cases n <;> simp [Node.id, Node.ids]

theorem ids_rebuild_perm (fs : List Frame) (n : Node) :
    List.Perm (rebuild fs n).ids (n.ids ++ framesIds fs) := by
  induction fs generalizing n with
  | nil => simp [rebuild, framesIds]
  | cons f fs ih =>
    refine (ih _).trans ?_
    rw [List.perm_iff_count]
    intro x
    simp [Node.ids, idsList_append, idsList, framesIds, List.count_cons]
    omega

mutual
theorem Node.locate_eq_none (target : Nat) : ∀ (n : Node) (path : List Frame),
    target ∉ n.ids → n.locate target path = none
  | .text i v, path, h => by
    simp [Node.ids] at h
    simp [Node.locate, Ne.symm h]
  | .comment i v, path, h => by
    simp [Node.ids] at h
    simp [Node.locate, Ne.symm h]
  | .element i t a ch, path, h => by
    simp [Node.ids] at h
    simp [Node.locate, Ne.symm h.1]
    exact locateList_eq_none target i t a path ch [] h.2
theorem locateList_eq_none (target : Nat) (i : Nat) (t : String) (a : List (String × String))
    (path : List Frame) : ∀ (l before : List Node),
    target ∉ idsList l → locateList target i t a path l before = none
  | [], before, _ => by simp [locateList]
  | n :: rest, before, h => by
    simp [idsList] at h
    simp [locateList, Node.locate_eq_none target n _ h.1,
      locateList_eq_none target i t a path rest _ h.2]
end

theorem locateList_skip (target : Nat) (i : Nat) (t : String) (a : List (String × String))
    (path : List Frame) (pre rest before : List Node) (h : target ∉ idsList pre) :
    locateList target i t a path (pre ++ rest) before
      = locateList target i t a path rest (before ++ pre) := by
  induction pre generalizing before with
  | nil => simp
  | cons n pre ih =>
    simp [idsList] at h
    simp [locateList, Node.locate_eq_none target n _ h.1, ih (before ++ [n]) h.2]

theorem Node.locate_self (n : Node) (path : List Frame) :
    n.locate n.id path = some (path, n) := by
  cases n <;> simp [Node.locate, Node.id]

theorem locate_rebuild_of_mem (target : Nat) (fs : List Frame) :
    ∀ (n : Node) (path : List Frame), target ∈ n.ids → (rebuild fs n).ids.Nodup →
      (rebuild fs n).locate target path = n.locate target (fs ++ path) := by
  induction fs with
  | nil => intro n path _ _; simp [rebuild]
  | cons f fs ih =>
    intro n path hmem hnd
    have hmem2 : target ∈ (Node.element f.id f.tag f.attrs (f.before ++ n :: f.after)).ids := by
      simp [Node.ids, idsList_append, idsList, hmem]
    have hnd2 : (Node.element f.id f.tag f.attrs (f.before ++ n :: f.after)).ids.Nodup :=
      (((ids_rebuild_perm fs _).nodup_iff).1 hnd).of_append_left
    have e := ih _ path hmem2 hnd
    simp only [rebuild]
    rw [e]
    simp only [Node.ids, idsList_append, idsList, List.nodup_cons, List.nodup_append,
      List.mem_append, not_or, List.Disjoint] at hnd2
    obtain ⟨⟨hb, hn, ha⟩, hndb, ⟨hndn, hnda, hdis1⟩, hdis2⟩ := hnd2
    have h1 : f.id ≠ target := by
      intro h; exact hn (h ▸ hmem)
    have h2 : target ∉ idsList f.before := by
      intro h; exact hdis2 h (Or.inl hmem)
    have h3 : target ∉ idsList f.after := by
      intro h; exact hdis1 hmem h
    simp only [Node.locate, h1, if_false]
    rw [locateList_skip _ _ _ _ _ _ _ _ h2]
    simp only [locateList, List.nil_append, List.cons_append]
    cases hl : n.locate target (f :: (fs ++ path)) with
    | some r => simp
    | none => simp [locateList_eq_none target _ _ _ _ _ _ h3]

theorem locate_rebuild (fs : List Frame) (n : Node) (h : (rebuild fs n).ids.Nodup) :
    (rebuild fs n).locate n.id [] = some (fs, n) := by
  rw [locate_rebuild_of_mem n.id fs n [] n.id_mem_ids h, Node.locate_self]
  simp

theorem parentNode_rebuild (f : Frame) (fs : List Frame) (n : Node)
    (h : (rebuild (f :: fs) n).ids.Nodup) :
    parentNode (rebuild (f :: fs) n) n.id = some f.id := by
  simp [parentNode, locate_rebuild _ _ h]

theorem nextSibling_rebuild (f : Frame) (fs : List Frame) (n : Node)
    (h : (rebuild (f :: fs) n).ids.Nodup) :
    nextSibling (rebuild (f :: fs) n) n.id = f.after.head? := by
  simp [nextSibling, locate_rebuild _ _ h]

theorem replaceChild_rebuild (f : Frame) (fs : List Frame) (n new : Node)
    (h : (rebuild (f :: fs) n).ids.Nodup) :
    replaceChild (rebuild (f :: fs) n) f.id new n.id = .ok (rebuild (f :: fs) new) := by
  simp [replaceChild, locate_rebuild _ _ h]

theorem removeChild_rebuild (f : Frame) (fs : List Frame) (n : Node)
    (h : (rebuild (f :: fs) n).ids.Nodup) :
    removeChild (rebuild (f :: fs) n) f.id n.id
      = .ok (rebuild fs (.element f.id f.tag f.attrs (f.before ++ f.after))) := by
  simp [removeChild, locate_rebuild _ _ h]

/-! ## Induction over sibling lists -/

mutual
theorem Node.children_induction (Q : List Node → Prop) (hnil : Q [])
    (hcons : ∀ n rest, (∀ i t a ch, n = Node.element i t a ch → Q ch) → Q rest → Q (n :: rest)) :
    ∀ (n : Node) (i : Nat) (t : String) (a : List (String × String)) (ch : List Node),
      n = Node.element i t a ch → Q ch
  | .text _ _, _, _, _, _, h => by cases h
  | .comment _ _, _, _, _, _, h => by cases h
  | .element _ _ _ ch, _, _, _, _, h => by
    cases h
    exact forest_induction Q hnil hcons ch
theorem forest_induction (Q : List Node → Prop) (hnil : Q [])
    (hcons : ∀ n rest, (∀ i t a ch, n = Node.element i t a ch → Q ch) → Q rest → Q (n :: rest)) :
    ∀ l : List Node, Q l
  | [] => hnil
  | n :: rest =>
    hcons n rest (Node.children_induction Q hnil hcons n) (forest_induction Q hnil hcons rest)
end

theorem startsTriple_some {l : List Node} {tv : String} (h : startsTriple l = some tv) :
    ∃ ci cv ti ei ev rest, l = .comment ci cv :: .text ti tv :: .comment ei ev :: rest ∧
      trim cv = "email_off" ∧ trim ev = "/email_off" := by
  unfold startsTriple at h
  split at h
  · rename_i ci cv ti tv2 ei ev rest
    split at h
    · rename_i hc
      cases h
      exact ⟨ci, cv, ti, ei, ev, rest, rfl, hc.1, hc.2⟩
    · cases h
  · cases h

/-- Induction over a list of siblings along the cases of the rewriting: a triple at the head, or a
head that starts no triple. -/
theorem siblings_induction (P : List Node → Prop) (hnil : P [])
    (htriple : ∀ ci cv ti tv ei ev rest, trim cv = "email_off" → trim ev = "/email_off" →
      P rest → P (.comment ci cv :: .text ti tv :: .comment ei ev :: rest))
    (htext : ∀ i v rest, P rest → P (.text i v :: rest))
    (hcomment : ∀ i v rest, startsTriple (.comment i v :: rest) = none → P rest →
      P (.comment i v :: rest))
    (helement : ∀ i t a ch rest, P ch → P rest → P (.element i t a ch :: rest)) :
    ∀ l, P l := by
  have key : ∀ l : List Node, ∀ n : Nat, P (l.drop n) := by
    refine forest_induction (fun l => ∀ n : Nat, P (l.drop n)) ?_ ?_
    · intro n; simpa using hnil
    · intro x rest hch hrest n
      cases n with
      | succ m => simpa using hrest m
      | zero =>
        simp only [List.drop_zero]
        have hr : P rest := by simpa using hrest 0
        cases x with
        | text i v => exact htext i v rest hr
        | element i t a ch => exact helement i t a ch rest (by simpa using hch i t a ch rfl 0) hr
        | comment i v =>
          cases hs : startsTriple (.comment i v :: rest) with
          | none => exact hcomment i v rest hs hr
          | some tv =>
            obtain ⟨ci, cv, ti, ei, ev, rest2, hl, hc, he⟩ := startsTriple_some hs
            cases hl
            exact htriple _ _ _ _ _ _ _ hc he (by simpa using hrest 2)
  intro l
  simpa using key l 0

/-! ## Identities stay distinct -/

theorem mailtoLink_eq (email : String) (k : Nat) : mailtoLink email k = anchorFor email k := by
  simp only [mailtoLink, createElement, Node.setHref, Node.setTextContent, List.filter_nil,
    anchorFor]

theorem mailtoLink_ids (email : String) (k : Nat) :
    (mailtoLink email k).1.ids.Nodup ∧ k ≤ (mailtoLink email k).2 ∧
      ∀ i ∈ (mailtoLink email k).1.ids, k ≤ i ∧ i < (mailtoLink email k).2 := by
  rw [mailtoLink_eq, anchorFor]
  split <;> simp [Node.ids, idsList]

theorem nodup_splice {A B B2 C : List Nat} {k : Nat} (h : (A ++ B ++ C).Nodup)
    (hlt : ∀ i ∈ A ++ B ++ C, i < k) (h2 : B2.Nodup) (hB2 : ∀ i ∈ B2, i ∈ B ∨ k ≤ i) :
    (A ++ B2 ++ C).Nodup := by
  simp only [List.nodup_append, List.Disjoint, List.mem_append] at h hlt ⊢
  obtain ⟨⟨hA, hB, hAB⟩, hC, hABC⟩ := h
  refine ⟨⟨hA, h2, ?_⟩, hC, ?_⟩
  · intro i hiA hiB
    rcases hB2 i hiB with hb | hb
    · exact hAB hiA hb
    · have := hlt i (Or.inl (Or.inl hiA)); omega
  · intro i hi hiC
    rcases hi with hiA | hiB
    · exact hABC (Or.inl hiA) hiC
    · rcases hB2 i hiB with hb | hb
      · exact hABC (Or.inr hb) hiC
      · have := hlt i (Or.inr hiC); omega

theorem ids_splice_perm (fs : List Frame) (pid : Nat) (tag : String)
    (attrs : List (String × String)) (pre mid post : List Node) :
    List.Perm (rebuild fs (.element pid tag attrs (pre ++ mid ++ post))).ids
      ((pid :: idsList pre) ++ idsList mid ++ (idsList post ++ framesIds fs)) := by
  refine (ids_rebuild_perm fs _).trans ?_
  simp [Node.ids, idsList_append]

theorem bodyWF_splice (fs : List Frame) (pid : Nat) (tag : String)
    (attrs : List (String × String)) (pre mid mid2 post : List Node) (k k2 : Nat)
    (hnd : (rebuild fs (.element pid tag attrs (pre ++ mid ++ post))).ids.Nodup)
    (hlt : ∀ i ∈ (rebuild fs (.element pid tag attrs (pre ++ mid ++ post))).ids, i < k)
    (h2 : (idsList mid2).Nodup)
    (hm : ∀ i ∈ idsList mid2, i ∈ idsList mid ∨ (k ≤ i ∧ i < k2)) (hk : k ≤ k2) :
    (rebuild fs (.element pid tag attrs (pre ++ mid2 ++ post))).ids.Nodup ∧
      ∀ i ∈ (rebuild fs (.element pid tag attrs (pre ++ mid2 ++ post))).ids, i < k2 := by
  have p1 := ids_splice_perm fs pid tag attrs pre mid post
  have p2 := ids_splice_perm fs pid tag attrs pre mid2 post
  have hnd1 := p1.nodup_iff.1 hnd
  have hlt1 : ∀ i ∈ (pid :: idsList pre) ++ idsList mid ++ (idsList post ++ framesIds fs),
      i < k := fun i hi => hlt i (p1.mem_iff.2 hi)
  constructor
  · refine p2.nodup_iff.2 (nodup_splice hnd1 hlt1 h2 ?_)
    intro i hi
    rcases hm i hi with h | h
    · exact Or.inl h
    · exact Or.inr h.1
  · intro i hi
    have hi2 := p2.mem_iff.1 hi
    simp only [List.mem_append] at hi2 hlt1
    rcases hi2 with (hA | hB) | hC
    · have := hlt1 i (Or.inl (Or.inl hA)); omega
    · rcases hm i hB with h | h
      · have := hlt1 i (Or.inl (Or.inr h)); omega
      · exact h.2
    · have := hlt1 i (Or.inr hC); omega

/-! ## The DOM calls at a known position -/

theorem nextSibling_at (fs : List Frame) (pid : Nat) (tag : String)
    (attrs : List (String × String)) (pre : List Node) (n : Node) (post : List Node)
    (h : (rebuild fs (.element pid tag attrs (pre ++ n :: post))).ids.Nodup) :
    nextSibling (rebuild fs (.element pid tag attrs (pre ++ n :: post))) n.id = post.head? :=
  nextSibling_rebuild ⟨pid, tag, attrs, pre, post⟩ fs n h

theorem parentNode_at (fs : List Frame) (pid : Nat) (tag : String)
    (attrs : List (String × String)) (pre : List Node) (n : Node) (post : List Node)
    (h : (rebuild fs (.element pid tag attrs (pre ++ n :: post))).ids.Nodup) :
    parentNode (rebuild fs (.element pid tag attrs (pre ++ n :: post))) n.id = some pid :=
  parentNode_rebuild ⟨pid, tag, attrs, pre, post⟩ fs n h

theorem replaceChild_at (fs : List Frame) (pid : Nat) (tag : String)
    (attrs : List (String × String)) (pre : List Node) (n new : Node) (post : List Node)
    (h : (rebuild fs (.element pid tag attrs (pre ++ n :: post))).ids.Nodup) :
    replaceChild (rebuild fs (.element pid tag attrs (pre ++ n :: post))) pid new n.id
      = .ok (rebuild fs (.element pid tag attrs (pre ++ new :: post))) :=
  replaceChild_rebuild ⟨pid, tag, attrs, pre, post⟩ fs n new h

theorem removeChild_at (fs : List Frame) (pid : Nat) (tag : String)
    (attrs : List (String × String)) (pre : List Node) (n : Node) (post : List Node)
    (h : (rebuild fs (.element pid tag attrs (pre ++ n :: post))).ids.Nodup) :
    removeChild (rebuild fs (.element pid tag attrs (pre ++ n :: post))) pid n.id
      = .ok (rebuild fs (.element pid tag attrs (pre ++ post))) :=
  removeChild_rebuild ⟨pid, tag, attrs, pre, post⟩ fs n h

/-! ## One iteration at a known position -/

/-- At a well-formed triple the iteration replaces the three nodes by the anchor, and the three
nodes are children of the same parent when it does. -/
theorem processComment_triple (fs : List Frame) (pid : Nat) (tag : String)
    (attrs : List (String × String)) (pre : List Node) (ci : Nat) (cv : String) (ti : Nat)
    (tv : String) (ei : Nat) (ev : String) (rest : List Node) (o : List Node) (k : Nat)
    (ls : List Nat) (hc : trim cv = "email_off") (he : trim ev = "/email_off")
    (hwf : BodyWF ⟨rebuild fs (.element pid tag attrs
      (pre ++ .comment ci cv :: .text ti tv :: .comment ei ev :: rest)), o, k, ls⟩) :
    processComment ⟨rebuild fs (.element pid tag attrs
        (pre ++ .comment ci cv :: .text ti tv :: .comment ei ev :: rest)), o, k, ls⟩ ⟨ci, cv⟩
      = .ok ⟨rebuild fs (.element pid tag attrs (pre ++ (mailtoLink (trim tv) k).1 :: rest)), o,
          (mailtoLink (trim tv) k).2, ls⟩ ∧
    BodyWF ⟨rebuild fs (.element pid tag attrs (pre ++ (mailtoLink (trim tv) k).1 :: rest)), o,
      (mailtoLink (trim tv) k).2, ls⟩ ∧
    StepSafe ⟨rebuild fs (.element pid tag attrs
        (pre ++ .comment ci cv :: .text ti tv :: .comment ei ev :: rest)), o, k, ls⟩ ⟨ci, cv⟩ := by
  obtain ⟨hnd, hlt⟩ := hwf
  simp only at hnd hlt
  obtain ⟨hand, hk, hamem⟩ := mailtoLink_ids (trim tv) k
  generalize ha : (mailtoLink (trim tv) k).1 = a at *
  generalize hk2 : (mailtoLink (trim tv) k).2 = k2 at *
  -- the tree after `replaceChild`
  have w1 := bodyWF_splice fs pid tag attrs (pre ++ [.comment ci cv]) [.text ti tv] [a]
    (.comment ei ev :: rest) k k2 (by simpa using hnd) (by simpa using hlt)
    (by simpa [idsList] using hand) (by
      intro i hi
      simp only [idsList, List.append_nil] at hi
      exact Or.inr (hamem i hi)) hk
  simp only [List.append_assoc, List.singleton_append, List.cons_append, List.nil_append] at w1
  -- the tree after the first `removeChild`
  have w2 := bodyWF_splice fs pid tag attrs pre [.comment ci cv] []
    (a :: .comment ei ev :: rest) k2 k2 (by simpa using w1.1) (by simpa using w1.2)
    (by simp [idsList]) (by simp [idsList]) (Nat.le_refl _)
  simp only [List.append_assoc, List.singleton_append, List.cons_append, List.nil_append,
    List.append_nil] at w2
  -- the tree after the second `removeChild`
  have w3 := bodyWF_splice fs pid tag attrs (pre ++ [a]) [.comment ei ev] []
    rest k2 k2 (by simpa using w2.1) (by simpa using w2.2)
    (by simp [idsList]) (by simp [idsList]) (Nat.le_refl _)
  simp only [List.append_assoc, List.singleton_append, List.cons_append, List.nil_append,
    List.append_nil] at w3
  have ns1 := nextSibling_at fs pid tag attrs pre (.comment ci cv)
    (.text ti tv :: .comment ei ev :: rest) hnd
  have pn1 := parentNode_at fs pid tag attrs pre (.comment ci cv)
    (.text ti tv :: .comment ei ev :: rest) hnd
  have ns2 := nextSibling_at fs pid tag attrs (pre ++ [.comment ci cv]) (.text ti tv)
    (.comment ei ev :: rest) (by simpa using hnd)
  have pn2 := parentNode_at fs pid tag attrs (pre ++ [.comment ci cv]) (.text ti tv)
    (.comment ei ev :: rest) (by simpa using hnd)
  have pn3 := parentNode_at fs pid tag attrs (pre ++ [.comment ci cv, .text ti tv])
    (.comment ei ev) rest (by simpa using hnd)
  have rc := replaceChild_at fs pid tag attrs (pre ++ [.comment ci cv]) (.text ti tv) a
    (.comment ei ev :: rest) (by simpa using hnd)
  have rm1 := removeChild_at fs pid tag attrs pre (.comment ci cv)
    (a :: .comment ei ev :: rest) w1.1
  have rm2 := removeChild_at fs pid tag attrs (pre ++ [a]) (.comment ei ev) rest
    (by simpa using w2.1)
  simp only [List.append_assoc, List.singleton_append, List.cons_append, List.nil_append,
    Node.id, List.head?_cons] at ns1 pn1 ns2 pn2 pn3 rc rm1 rm2
  have hproc : processComment ⟨rebuild fs (.element pid tag attrs
        (pre ++ .comment ci cv :: .text ti tv :: .comment ei ev :: rest)), o, k, ls⟩ ⟨ci, cv⟩
      = .ok ⟨rebuild fs (.element pid tag attrs (pre ++ a :: rest)), o, k2, ls⟩ := by
    simp only [processComment, hc, he, if_true, ns1, ns2, pn1, ha, hk2, rc, rm1, rm2]
  refine ⟨hproc, ⟨w3.1, w3.2⟩, ?_, ?_, ⟨_, hproc⟩⟩
  · intro t e hp
    obtain ⟨_, tv2, ev2, h1, h2, _⟩ := hp
    simp only [ns1] at h1
    cases h1
    simp only [ns2] at h2
    cases h2
    exact ⟨pid, pn1, pn2, pn3⟩
  · intro h
    simp only [pn1] at h
    cases h

/-- When the shape checks fail, the iteration leaves the document as it is. -/
theorem processComment_of_not_passes (d : Document) (c : Comment)
    (h : ∀ t e, ¬ PassesChecks d c t e) : processComment d c = .ok d := by
  unfold processComment
  split
  · rename_i hc
    split
    · rename_i textId textValue h1
      split
      · rename_i endId endValue h2
        split
        · rename_i he
          exact absurd ⟨hc, textValue, endValue, h1, h2, he⟩ (h textId endId)
        · rfl
      · rfl
    · rfl
  · rfl

/-- A comment in the tree that starts no triple fails the shape checks. -/
theorem not_passes_at (fs : List Frame) (pid : Nat) (tag : String)
    (attrs : List (String × String)) (pre : List Node) (ci : Nat) (cv : String)
    (rest : List Node) (o : List Node) (k : Nat) (ls : List Nat)
    (hnd : (rebuild fs (.element pid tag attrs (pre ++ .comment ci cv :: rest))).ids.Nodup)
    (hs : startsTriple (.comment ci cv :: rest) = none) (t e : Nat) :
    ¬ PassesChecks ⟨rebuild fs (.element pid tag attrs (pre ++ .comment ci cv :: rest)), o, k, ls⟩
      ⟨ci, cv⟩ t e := by
  rintro ⟨hc, tv, ev, h1, h2, he⟩
  have ns1 := nextSibling_at fs pid tag attrs pre (.comment ci cv) rest hnd
  simp only [Node.id] at ns1 h1 h2
  rw [ns1] at h1
  cases rest with
  | nil => simp at h1
  | cons x rest2 =>
    simp only [List.head?_cons, Option.some.injEq] at h1
    subst h1
    have ns2 := nextSibling_at fs pid tag attrs (pre ++ [.comment ci cv]) (.text t tv) rest2
      (by simpa using hnd)
    simp only [List.append_assoc, List.singleton_append, Node.id] at ns2
    rw [ns2] at h2
    cases rest2 with
    | nil => simp at h2
    | cons y rest3 =>
      simp only [List.head?_cons, Option.some.injEq] at h2
      subst h2
      simp [startsTriple, hc, he] at hs

theorem forEach_append (xs ys : List Comment) (d : Document) :
    forEach (xs ++ ys) d =
      match forEach xs d with
      | .ok d1 => forEach ys d1
      | .error e => .error e := by
  induction xs generalizing d with
  | nil => simp [forEach]
  | cons c xs ih =>
    simp only [List.cons_append, forEach]
    cases processComment d c with
    | ok d1 => simp [ih]
    | error e => simp

theorem AllSafe_append (xs ys : List Comment) (d : Document) (h1 : AllSafe xs d)
    (h2 : ∀ d1, forEach xs d = .ok d1 → AllSafe ys d1) : AllSafe (xs ++ ys) d := by
  induction xs generalizing d with
  | nil => exact h2 d rfl
  | cons c xs ih =>
    refine ⟨h1.1, fun d1 hd1 => ih d1 (h1.2 d1 hd1) ?_⟩
    intro d2 hd2
    apply h2
    simp [forEach, hd1, hd2]

theorem replaceFrom_triple (ci : Nat) (cv : String) (ti : Nat) (tv : String) (ei : Nat)
    (ev : String) (rest : List Node) (k : Nat) (hc : trim cv = "email_off")
    (he : trim ev = "/email_off") :
    replaceFrom (.comment ci cv :: .text ti tv :: .comment ei ev :: rest) 0 k =
      ((anchorFor (trim tv) k).1 :: (replaceFrom rest 0 (anchorFor (trim tv) k).2).1,
        (replaceFrom rest 0 (anchorFor (trim tv) k).2).2) := by
  simp [replaceFrom, startsTriple, hc, he]

theorem replaceFrom_cons (n : Node) (rest : List Node) (k : Nat)
    (h : startsTriple (n :: rest) = none) :
    replaceFrom (n :: rest) 0 k =
      ((n.replaceTriples k).1 :: (replaceFrom rest 0 (n.replaceTriples k).2).1,
        (replaceFrom rest 0 (n.replaceTriples k).2).2) := by
  simp [replaceFrom, h]

theorem end_marker_ne {s : String} (h : trim s = "/email_off") : trim s ≠ "email_off" := by
  rw [h]; decide

/-! ## The loop over the comments of a list of siblings -/

/-- The loop over the comments under a list of siblings `l`, run in a well-formed document in which
`l` follows the siblings `pre` below some element, rewrites `l` as specified, keeps the document
well-formed, and is safe at every iteration. -/
theorem forEach_siblings : ∀ (l : List Node) (fs : List Frame) (pid : Nat) (tag : String)
    (attrs : List (String × String)) (pre : List Node) (o : List Node) (k : Nat) (ls : List Nat),
    BodyWF ⟨rebuild fs (.element pid tag attrs (pre ++ l)), o, k, ls⟩ →
    forEach (commentsList l) ⟨rebuild fs (.element pid tag attrs (pre ++ l)), o, k, ls⟩
      = .ok ⟨rebuild fs (.element pid tag attrs (pre ++ (replaceFrom l 0 k).1)), o,
          (replaceFrom l 0 k).2, ls⟩ ∧
    BodyWF ⟨rebuild fs (.element pid tag attrs (pre ++ (replaceFrom l 0 k).1)), o,
      (replaceFrom l 0 k).2, ls⟩ ∧
    AllSafe (commentsList l) ⟨rebuild fs (.element pid tag attrs (pre ++ l)), o, k, ls⟩ := by
  intro l
  induction l using siblings_induction with
  | hnil =>
    intro fs pid tag attrs pre o k ls hwf
    simpa [commentsList, forEach, replaceFrom, AllSafe] using hwf
  | htriple ci cv ti tv ei ev rest hc he ih =>
    intro fs pid tag attrs pre o k ls hwf
    obtain ⟨hp, hwf1, hsafe⟩ := processComment_triple fs pid tag attrs pre ci cv ti tv ei ev
      rest o k ls hc he hwf
    have hne := end_marker_ne he
    have hend : ∀ d : Document, processComment d ⟨ei, ev⟩ = .ok d := by
      intro d; simp [processComment, hne]
    have hendsafe : ∀ d : Document, StepSafe d ⟨ei, ev⟩ := by
      intro d
      exact ⟨fun t e hpc => absurd hpc.1 hne, fun _ => hne, d, hend d⟩
    have ih1 := ih fs pid tag attrs (pre ++ [(mailtoLink (trim tv) k).1]) o
      (mailtoLink (trim tv) k).2 ls (by simpa using hwf1)
    simp only [List.append_assoc, List.singleton_append] at ih1
    rw [replaceFrom_triple _ _ _ _ _ _ _ _ hc he, ← mailtoLink_eq]
    refine ⟨?_, ih1.2.1, hsafe, ?_⟩
    · simp only [commentsList, Node.comments, List.nil_append, List.singleton_append, forEach,
        hp, hend]
      exact ih1.1
    · intro d1 hd1
      simp only [hp, Except.ok.injEq] at hd1
      subst hd1
      simp only [commentsList, Node.comments, List.nil_append, List.singleton_append]
      refine ⟨hendsafe _, ?_⟩
      intro d2 hd2
      simp only [hend, Except.ok.injEq] at hd2
      subst hd2
      exact ih1.2.2
  | htext i v rest ih =>
    intro fs pid tag attrs pre o k ls hwf
    have ih1 := ih fs pid tag attrs (pre ++ [.text i v]) o k ls (by simpa using hwf)
    simp only [List.append_assoc, List.singleton_append] at ih1
    rw [replaceFrom_cons _ _ _ (by simp [startsTriple])]
    simpa [commentsList, Node.comments, Node.replaceTriples] using ih1
  | hcomment i v rest hs ih =>
    intro fs pid tag attrs pre o k ls hwf
    have hnp := not_passes_at fs pid tag attrs pre i v rest o k ls hwf.1 hs
    have hp := processComment_of_not_passes _ _ hnp
    have pn := parentNode_at fs pid tag attrs pre (.comment i v) rest hwf.1
    simp only [Node.id] at pn
    have ih1 := ih fs pid tag attrs (pre ++ [.comment i v]) o k ls (by simpa using hwf)
    simp only [List.append_assoc, List.singleton_append] at ih1
    rw [replaceFrom_cons _ _ _ hs]
    simp only [Node.replaceTriples]
    refine ⟨?_, ih1.2.1, ⟨fun t e hpc => absurd hpc (hnp t e), ?_, _, hp⟩, ?_⟩
    · simp only [commentsList, Node.comments, List.singleton_append, forEach, hp]
      exact ih1.1
    · intro h
      simp only [pn] at h
      cases h
    · intro d1 hd1
      simp only [hp, Except.ok.injEq] at hd1
      subst hd1
      exact ih1.2.2
  | helement i t a ch rest ihch ih =>
    intro fs pid tag attrs pre o k ls hwf
    have ih1 := ihch (⟨pid, tag, attrs, pre, rest⟩ :: fs) i t a [] o k ls
      (by simpa [rebuild] using hwf)
    simp only [rebuild, List.nil_append] at ih1
    have ih2 := ih fs pid tag attrs (pre ++ [.element i t a (replaceFrom ch 0 k).1]) o
      (replaceFrom ch 0 k).2 ls (by simpa using ih1.2.1)
    simp only [List.append_assoc, List.singleton_append] at ih2
    rw [replaceFrom_cons _ _ _ (by simp [startsTriple])]
    simp only [Node.replaceTriples, commentsList, Node.comments]
    refine ⟨?_, ih2.2.1, ?_⟩
    · rw [forEach_append, ih1.1]
      exact ih2.1
    · apply AllSafe_append _ _ _ ih1.2.2
      intro d1 hd1
      rw [ih1.1] at hd1
      cases hd1
      exact ih2.2.2

/-! ## deobfuscateEmails on a whole document -/

theorem deobfuscateEmails_spec (d : Document) (h : BodyWF d) :
    deobfuscateEmails d = .ok (replaceTriples d) ∧ BodyWF (replaceTriples d) ∧
      AllSafe (commentNodes d) d := by
  obtain ⟨body, o, k, ls⟩ := d
  cases body with
  | text i v => exact ⟨rfl, h, trivial⟩
  | comment i v => exact ⟨rfl, h, trivial⟩
  | element i t a ch =>
    have := forEach_siblings ch [] i t a [] o k ls (by simpa [rebuild] using h)
    simpa [rebuild, deobfuscateEmails, commentNodes, replaceTriples, Node.replaceTriples]
      using this

theorem forEach_fixed (cs : List Comment) (d : Document)
    (h : ∀ c ∈ cs, processComment d c = .ok d) : forEach cs d = .ok d := by
  induction cs with
  | nil => rfl
  | cons c cs ih =>
    simp only [forEach, h c (List.mem_cons_self _ _)]
    exact ih (fun c2 hc2 => h c2 (List.mem_cons_of_mem _ hc2))

theorem not_passes_of_malformed (d : Document) (c : Comment) (h : Malformed d c) (t e : Nat) :
    ¬ PassesChecks d c t e := by
  rintro ⟨_, tv, ev, h1, h2, he⟩
  rcases h with h | ⟨n, hn, hnt⟩ | ⟨ti, tv2, hn, hnn⟩ | ⟨ti, tv2, n, hn, hnn, hne⟩
  · rw [h1] at h; cases h
  · rw [h1] at hn; cases hn; simp [Node.isText] at hnt
  · rw [h1] at hn; cases hn; rw [h2] at hnn; cases hnn
  · rw [h1] at hn; cases hn; rw [h2] at hnn; cases hnn
    simp [Node.isEndMarker, he] at hne

/-! ## The rewriting leaves no triple behind -/

theorem startsTriple_anchorFor_cons (email : String) (k : Nat) (l : List Node) :
    startsTriple ((anchorFor email k).1 :: l) = none := by
  unfold anchorFor
  split <;> simp [startsTriple]

theorem startsTriple_comment_anchorFor (i : Nat) (v : String) (email : String) (k : Nat)
    (l : List Node) : startsTriple (.comment i v :: (anchorFor email k).1 :: l) = none := by
  unfold anchorFor
  split <;> simp [startsTriple]

theorem startsTriple_comment_text_anchorFor (i : Nat) (v : String) (ti : Nat) (tv : String)
    (email : String) (k : Nat) (l : List Node) :
    startsTriple (.comment i v :: .text ti tv :: (anchorFor email k).1 :: l) = none := by
  unfold anchorFor
  split <;> simp [startsTriple]

theorem replaceTriples_anchorFor (email : String) (k k2 : Nat) :
    (anchorFor email k).1.replaceTriples k2 = ((anchorFor email k).1, k2) := by
  unfold anchorFor
  split <;> simp [Node.replaceTriples, replaceFrom, startsTriple]

/-- A comment that starts no triple starts none after its later siblings are rewritten. -/
theorem startsTriple_replaceFrom (i : Nat) (v : String) (rest : List Node) (k : Nat)
    (hs : startsTriple (.comment i v :: rest) = none) :
    startsTriple (.comment i v :: (replaceFrom rest 0 k).1) = none := by
  cases rest with
  | nil => simp [replaceFrom, startsTriple]
  | cons x rest2 =>
    cases hs2 : startsTriple (x :: rest2) with
    | some tv2 =>
      obtain ⟨ci, cv, ti, ei, ev, rest3, hl, hc, he⟩ := startsTriple_some hs2
      rw [hl, replaceFrom_triple _ _ _ _ _ _ _ _ hc he]
      exact startsTriple_comment_anchorFor _ _ _ _ _
    | none =>
      rw [replaceFrom_cons _ _ _ hs2]
      cases x with
      | comment ci cv => simp [startsTriple, Node.replaceTriples]
      | element ci t a ch => simp [startsTriple, Node.replaceTriples]
      | text ti tv =>
        simp only [Node.replaceTriples]
        cases rest2 with
        | nil => simp [replaceFrom, startsTriple]
        | cons y rest3 =>
          cases hs3 : startsTriple (y :: rest3) with
          | some tv3 =>
            obtain ⟨ci, cv, ti2, ei, ev, rest4, hl, hc, he⟩ := startsTriple_some hs3
            rw [hl, replaceFrom_triple _ _ _ _ _ _ _ _ hc he]
            exact startsTriple_comment_text_anchorFor _ _ _ _ _ _ _
          | none =>
            rw [replaceFrom_cons _ _ _ hs3]
            cases y with
            | comment ei ev =>
              simp only [startsTriple, Node.replaceTriples] at hs ⊢
              exact hs
            | element ci t a ch => simp [startsTriple, Node.replaceTriples]
            | text ti2 tv2 => simp [startsTriple, Node.replaceTriples]

theorem replaceFrom_idem : ∀ (l : List Node) (k k2 : Nat),
    replaceFrom (replaceFrom l 0 k).1 0 k2 = ((replaceFrom l 0 k).1, k2) := by
  intro l
  induction l using siblings_induction with
  | hnil => intro k k2; simp [replaceFrom]
  | htriple ci cv ti tv ei ev rest hc he ih =>
    intro k k2
    rw [replaceFrom_triple _ _ _ _ _ _ _ _ hc he]
    simp only
    rw [replaceFrom_cons _ _ _ (startsTriple_anchorFor_cons _ _ _), replaceTriples_anchorFor]
    simp only [ih]
  | htext i v rest ih =>
    intro k k2
    rw [replaceFrom_cons _ _ _ (by simp [startsTriple])]
    simp only [Node.replaceTriples]
    rw [replaceFrom_cons _ _ _ (by simp [startsTriple])]
    simp only [Node.replaceTriples, ih]
  | hcomment i v rest hs ih =>
    intro k k2
    rw [replaceFrom_cons _ _ _ hs]
    simp only [Node.replaceTriples]
    rw [replaceFrom_cons _ _ _ (startsTriple_replaceFrom _ _ _ _ hs)]
    simp only [Node.replaceTriples, ih]
  | helement i t a ch rest ihch ih =>
    intro k k2
    rw [replaceFrom_cons _ _ _ (by simp [startsTriple])]
    simp only [Node.replaceTriples]
    rw [replaceFrom_cons _ _ _ (by simp [startsTriple])]
    simp only [Node.replaceTriples, ihch, ih]

theorem replaceTriples_idem (d : Document) : replaceTriples (replaceTriples d) = replaceTriples d := by
  obtain ⟨body, o, k, ls⟩ := d
  cases body with
  | text i v => rfl
  | comment i v => rfl
  | element i t a ch => simp [replaceTriples, Node.replaceTriples, replaceFrom_idem]

/-! ## The two components and the listeners -/

theorem processComment_listeners (d : Document) (c : Comment) (L : List Nat) :
    processComment { d with listeners := L } c =
      match processComment d c with
      | .ok d1 => .ok { d1 with listeners := L }
      | .error e => .error e := by
  by_cases hc : trim c.nodeValue = "email_off"
  swap
  · simp [processComment, hc]
  cases h1 : nextSibling d.body c.id with
  | none => simp [processComment, hc, h1]
  | some n =>
    cases n with
    | comment i v => simp [processComment, hc, h1]
    | element i t a ch => simp [processComment, hc, h1]
    | text ti tv =>
      cases h2 : nextSibling d.body ti with
      | none => simp [processComment, hc, h1, h2]
      | some m =>
        cases m with
        | text i v => simp [processComment, hc, h1, h2]
        | element i t a ch => simp [processComment, hc, h1, h2]
        | comment ei ev =>
          by_cases he : trim ev = "/email_off"
          swap
          · simp [processComment, hc, h1, h2, he]
          cases hp : parentNode d.body c.id with
          | none => simp [processComment, hc, h1, h2, he, hp]
          | some p =>
            cases hr : replaceChild d.body p (mailtoLink (trim tv) d.nextId).1 ti with
            | error e => simp [processComment, hc, h1, h2, he, hp, hr]
            | ok b1 =>
              cases hr1 : removeChild b1 p c.id with
              | error e => simp [processComment, hc, h1, h2, he, hp, hr, hr1]
              | ok b2 =>
                cases hr2 : removeChild b2 p ei with
                | error e => simp [processComment, hc, h1, h2, he, hp, hr, hr1, hr2]
                | ok b3 => simp [processComment, hc, h1, h2, he, hp, hr, hr1, hr2]

theorem forEach_listeners (cs : List Comment) (d : Document) (L : List Nat) :
    forEach cs { d with listeners := L } =
      match forEach cs d with
      | .ok d1 => .ok { d1 with listeners := L }
      | .error e => .error e := by
  induction cs generalizing d with
  | nil => rfl
  | cons c cs ih =>
    simp only [forEach, processComment_listeners]
    cases processComment d c with
    | error e => rfl
    | ok d1 => exact ih d1

theorem processComment_keeps (d d1 : Document) (c : Comment) (h : processComment d c = .ok d1) :
    d1.listeners = d.listeners ∧ d1.outside = d.outside := by
  by_cases hc : trim c.nodeValue = "email_off"
  swap
  · simp [processComment, hc] at h; subst h; exact ⟨rfl, rfl⟩
  cases h1 : nextSibling d.body c.id with
  | none => simp [processComment, hc, h1] at h; subst h; exact ⟨rfl, rfl⟩
  | some n =>
    cases n with
    | comment i v => simp [processComment, hc, h1] at h; subst h; exact ⟨rfl, rfl⟩
    | element i t a ch => simp [processComment, hc, h1] at h; subst h; exact ⟨rfl, rfl⟩
    | text ti tv =>
      cases h2 : nextSibling d.body ti with
      | none => simp [processComment, hc, h1, h2] at h; subst h; exact ⟨rfl, rfl⟩
      | some m =>
        cases m with
        | text i v => simp [processComment, hc, h1, h2] at h; subst h; exact ⟨rfl, rfl⟩
        | element i t a ch => simp [processComment, hc, h1, h2] at h; subst h; exact ⟨rfl, rfl⟩
        | comment ei ev =>
          by_cases he : trim ev = "/email_off"
          swap
          · simp [processComment, hc, h1, h2, he] at h; subst h; exact ⟨rfl, rfl⟩
          cases hp : parentNode d.body c.id with
          | none => simp [processComment, hc, h1, h2, he, hp] at h
          | some p =>
            cases hr : replaceChild d.body p (mailtoLink (trim tv) d.nextId).1 ti with
            | error e => simp [processComment, hc, h1, h2, he, hp, hr] at h
            | ok b1 =>
              cases hr1 : removeChild b1 p c.id with
              | error e => simp [processComment, hc, h1, h2, he, hp, hr, hr1] at h
              | ok b2 =>
                cases hr2 : removeChild b2 p ei with
                | error e => simp [processComment, hc, h1, h2, he, hp, hr, hr1, hr2] at h
                | ok b3 =>
                  simp [processComment, hc, h1, h2, he, hp, hr, hr1, hr2] at h
                  subst h; exact ⟨rfl, rfl⟩

theorem forEach_keeps (cs : List Comment) (d d1 : Document) (h : forEach cs d = .ok d1) :
    d1.listeners = d.listeners ∧ d1.outside = d.outside := by
  induction cs generalizing d with
  | nil => cases h; exact ⟨rfl, rfl⟩
  | cons c cs ih =>
    simp only [forEach] at h
    cases hp : processComment d c with
    | error e => rw [hp] at h; cases h
    | ok d2 =>
      rw [hp] at h
      have a := processComment_keeps d d2 c hp
      have b := ih d2 h
      exact ⟨b.1.trans a.1, b.2.trans a.2⟩

/-! ## The claims -/

/-- C1: in a document whose body nodes are distinct objects, `deobfuscateEmails` returns the input
tree in which every three consecutive siblings [comment with trimmed value `email_off`, text node
`t`, comment with trimmed value `/email_off`] are replaced by one anchor with `href` equal to
`mailto:` plus the trimmed text and with that trimmed text as content; the marker comments are
gone and every other node stays in place, unchanged. -/
theorem deobfuscateEmails_replaces_triples (d : Document) (h : BodyWF d) :
    deobfuscateEmails d = .ok (replaceTriples d) :=
  (deobfuscateEmails_spec d h).1

/-- C1, witness: the body with the triple for `alice@example.com` becomes the body that contains
exactly the anchor to `mailto:alice@example.com`. -/
theorem deobfuscateEmails_replaces_triples_witness :
    BodyWF aliceDoc ∧ deobfuscateEmails aliceDoc = .ok aliceLinked :=
  ⟨by decide, deobfuscateEmails_replaces_triples aliceDoc (by decide)⟩

/-- C2: when every comment of the body whose trimmed value is `email_off` heads a malformed
triple, `deobfuscateEmails` returns the document it was given: nothing is added, removed,
replaced or reordered. -/
theorem deobfuscateEmails_malformed_unchanged (d : Document)
    (h : ∀ c ∈ commentNodes d, trim c.nodeValue = "email_off" → Malformed d c) :
    deobfuscateEmails d = .ok d := by
  apply forEach_fixed
  intro c hc
  apply processComment_of_not_passes
  intro t e hp
  exact not_passes_of_malformed d c (h c hc hp.1) t e hp

/-- C2, witness: a paragraph with a start marker whose text is followed by another start marker,
which itself is the last child. -/
theorem deobfuscateEmails_malformed_unchanged_witness :
    (∀ c ∈ commentNodes malformedDoc, trim c.nodeValue = "email_off" → Malformed malformedDoc c) ∧
      deobfuscateEmails malformedDoc = .ok malformedDoc :=
  have hm : ∀ c ∈ commentNodes malformedDoc, trim c.nodeValue = "email_off" →
      Malformed malformedDoc c := by
    intro c hc _
    have hc2 : c = ⟨2, " email_off "⟩ ∨ c = ⟨4, "email_off"⟩ := by
      simpa [commentNodes, malformedDoc, commentsList, Node.comments] using hc
    rcases hc2 with rfl | rfl
    · exact Or.inr (Or.inr (Or.inr ⟨3, "bob@example.com", .comment 4 "email_off", rfl, rfl, rfl⟩))
    · exact Or.inl rfl
  ⟨hm, deobfuscateEmails_malformed_unchanged malformedDoc hm⟩

/-- C3: `deobfuscateEmails` is idempotent: on a document whose body nodes are distinct objects the
first pass returns a document that the second pass returns unchanged, so the first pass leaves no
well-formed triple for the second to rewrite. -/
theorem deobfuscateEmails_idempotent (d : Document) (h : BodyWF d) :
    ∃ d1, deobfuscateEmails d = .ok d1 ∧ deobfuscateEmails d1 = .ok d1 := by
  obtain ⟨h1, h2, _⟩ := deobfuscateEmails_spec d h
  refine ⟨replaceTriples d, h1, ?_⟩
  rw [(deobfuscateEmails_spec _ h2).1, replaceTriples_idem]

/-- C3, witness: a paragraph in which a start marker precedes a well-formed triple and an end
marker follows it. -/
theorem deobfuscateEmails_idempotent_witness :
    BodyWF nestedDoc ∧
      ∃ d1, deobfuscateEmails nestedDoc = .ok d1 ∧ deobfuscateEmails d1 = .ok d1 :=
  ⟨by decide, deobfuscateEmails_idempotent nestedDoc (by decide)⟩

/-- C4: a click on an anchor whose URL starts with `mailto:` prevents the default navigation and
then navigates to the URL; it issues no probe and shows no prompt. -/
theorem click_mailto (url : String) (outcome : ProbeOutcome) (answer : Bool)
    (h : startsWith url "mailto:" = true) :
    click url outcome answer = [.preventDefault, .setLocation url] := by
  simp [click, onClick, h]

/-- C4, witness: the anchor to `mailto:alice@example.com`. -/
theorem click_mailto_witness :
    startsWith "mailto:alice@example.com" "mailto:" = true ∧
      click "mailto:alice@example.com" (.rejected "TypeError") false
        = [.preventDefault, .setLocation "mailto:alice@example.com"] :=
  ⟨by decide, click_mailto _ _ _ (by decide)⟩

/-- C5: a click on an anchor that is not a mail link and whose probe resolves to a response that
is not ok shows the prompt that the link might be broken, and navigates to the URL exactly when
the user confirms. -/
theorem click_not_ok (url : String) (response : Response) (answer : Bool)
    (hm : startsWith url "mailto:" = false) (hr : response.ok = false) :
    click url (.fulfilled response) answer =
      [.preventDefault, .fetch url "HEAD",
        .confirm ("The link to \"" ++ url ++ "\" might be broken. Do you want to continue?")]
      ++ (if answer then [.setLocation url] else []) := by
  simp [click, onClick, onFulfilled, brokenMessage, hm, hr]

/-- C5, witness: `https://down.example` answers 404 and the user declines: no navigation. -/
theorem click_not_ok_witness :
    startsWith "https://down.example" "mailto:" = false ∧ Response.ok ⟨404⟩ = false ∧
      click "https://down.example" (.fulfilled ⟨404⟩) false =
        [.preventDefault, .fetch "https://down.example" "HEAD",
          .confirm "The link to \"https://down.example\" might be broken. Do you want to continue?"] :=
  ⟨by decide, by decide, click_not_ok "https://down.example" ⟨404⟩ false (by decide) (by decide)⟩

/-- C6: a click on an anchor that is not a mail link and whose probe is rejected logs the error,
then shows the prompt about the network error, and navigates to the URL exactly when the user
confirms. -/
theorem click_rejected (url : String) (error : String) (answer : Bool)
    (hm : startsWith url "mailto:" = false) :
    click url (.rejected error) answer =
      [.preventDefault, .fetch url "HEAD", .consoleError "Error checking link:" error,
        .confirm ("Could not check the link to \"" ++ url
          ++ "\" due to a network error. Do you want to continue?")]
      ++ (if answer then [.setLocation url] else []) := by
  simp [click, onClick, onRejected, networkMessage, hm]

/-- C6, witness: the probe of `https://offline.example` is rejected and the user confirms. -/
theorem click_rejected_witness :
    startsWith "https://offline.example" "mailto:" = false ∧
      click "https://offline.example" (.rejected "TypeError: Failed to fetch") true =
        [.preventDefault, .fetch "https://offline.example" "HEAD",
          .consoleError "Error checking link:" "TypeError: Failed to fetch",
          .confirm ("Could not check the link to \"https://offline.example\" due to a network "
            ++ "error. Do you want to continue?"),
          .setLocation "https://offline.example"] :=
  ⟨by decide, click_rejected "https://offline.example" "TypeError: Failed to fetch" true
    (by decide)⟩

/-- C7: a click on an anchor that is not a mail link and whose probe resolves to an ok response
navigates to the URL, with no prompt and no log entry. -/
theorem click_ok (url : String) (response : Response) (answer : Bool)
    (hm : startsWith url "mailto:" = false) (hr : response.ok = true) :
    click url (.fulfilled response) answer =
      [.preventDefault, .fetch url "HEAD", .setLocation url] := by
  simp [click, onClick, onFulfilled, hm, hr]

/-- C7, witness: `https://ok.example` answers 200. -/
theorem click_ok_witness :
    startsWith "https://ok.example" "mailto:" = false ∧ Response.ok ⟨200⟩ = true ∧
      click "https://ok.example" (.fulfilled ⟨200⟩) false =
        [.preventDefault, .fetch "https://ok.example" "HEAD", .setLocation "https://ok.example"] :=
  ⟨by decide, by decide, click_ok "https://ok.example" ⟨200⟩ false (by decide) (by decide)⟩

/-- C8, counterexample: a click on the anchor to `mailto:alice@example.com` issues no probe. -/
theorem click_mailto_no_probe :
    (probes (click "mailto:alice@example.com" (.fulfilled ⟨200⟩) true)).length ≠ 1 := by
  decide

/-- C8, amended: a click issues exactly one probe, a `HEAD` request to the URL of the anchor, when
that URL does not start with `mailto:`, whatever the outcome of the probe and the answer of the
user, and none when it does. -/
theorem click_probes (url : String) (outcome : ProbeOutcome) (answer : Bool) :
    probes (click url outcome answer)
      = if startsWith url "mailto:" then [] else [.fetch url "HEAD"] := by
  cases hm : startsWith url "mailto:" with
  | true => simp [click, onClick, hm, probes]
  | false =>
    cases outcome with
    | fulfilled r =>
      cases hr : r.ok <;> cases answer <;>
        simp [click, onClick, onFulfilled, hm, hr, probes]
    | rejected e => cases answer <;> simp [click, onClick, onRejected, hm, probes]

/-- C9, counterexample: on the body with the triple for `alice@example.com` the handler of the
script ends with a listener on the created anchor, the opposite order ends with none. -/
theorem order_matters : onDOMContentLoaded aliceDoc ≠ validateThenDeobfuscate aliceDoc := by
  intro h
  have h2 := congrArg listenersOf h
  exact absurd h2 (by decide)

/-- C9, amended: the two orders end with the same tree, but not with the same listeners:
`deobfuscateEmails` then `validateLinks` puts a listener on every anchor of the rewritten
document, the created mail anchors included; `validateLinks` then `deobfuscateEmails` puts one on
the anchors of the original document only. -/
theorem order_listeners (d d1 : Document) (h : deobfuscateEmails d = .ok d1) :
    onDOMContentLoaded d = .ok { d1 with listeners := d.listeners ++ querySelectorAllA d1 } ∧
      validateThenDeobfuscate d
        = .ok { d1 with listeners := d.listeners ++ querySelectorAllA d } := by
  have hk := forEach_keeps _ _ _ h
  constructor
  · simp [onDOMContentLoaded, h, validateLinks, hk.1]
  · have e := forEach_listeners (commentNodes d) d (d.listeners ++ querySelectorAllA d)
    unfold deobfuscateEmails at h
    rw [h] at e
    exact e

/-- C9, witness: the body with the triple for `alice@example.com`, where the created anchor is
node 4. -/
theorem order_listeners_witness :
    deobfuscateEmails aliceDoc = .ok aliceLinked ∧
      onDOMContentLoaded aliceDoc = .ok { aliceLinked with listeners := [4] } ∧
      validateThenDeobfuscate aliceDoc = .ok { aliceLinked with listeners := [] } :=
  ⟨rfl, order_listeners aliceDoc aliceLinked rfl⟩

/-- C10: on a document whose body nodes are distinct objects `deobfuscateEmails` throws nothing,
and at every iteration over the snapshot: when the comment passes the three shape checks, it, the
text node and the end marker are children of one parent; a comment that is detached is not a
start marker; the DOM calls of the iteration succeed. -/
theorem deobfuscateEmails_never_fails (d : Document) (h : BodyWF d) :
    (∃ d1, deobfuscateEmails d = .ok d1) ∧ AllSafe (commentNodes d) d :=
  ⟨⟨_, (deobfuscateEmails_spec d h).1⟩, (deobfuscateEmails_spec d h).2.2⟩

/-- C10, witness: a paragraph in which the end marker of a rewritten triple is visited after it
has been detached. -/
theorem deobfuscateEmails_never_fails_witness :
    BodyWF nestedDoc ∧
      (∃ d1, deobfuscateEmails nestedDoc = .ok d1) ∧ AllSafe (commentNodes nestedDoc) nestedDoc :=
  ⟨by decide, deobfuscateEmails_never_fails nestedDoc (by decide)⟩

end TDS
